import Mathlib

/-!
A verification development for `sync_wimi.py`: a shallow embedding of the
document data model, filename normalization, source-listing filter, and the
reconciliation pass `synchronize_with_dify`, together with theorems about the
reconciler's create/update/delete behaviour.

Machine conventions: Python strings are `String`, timestamps are `Int`
(seconds since epoch; only order matters), identifiers (Wimi `file_id`,
Dify document ids) are `Nat`, and file contents are `List Nat` (bytes).
Fallible Python code (code that can raise) is embedded with `Option`.
-/

/-- Line 12 of the source: extensions accepted natively by the sink
(the duplicated ".md" entry is kept verbatim). -/
def SUPPORTED_EXTENSIONS_DIFY : List String :=
  [".txt", ".md", ".md", ".pdf", ".html", ".htm", ".xlsx", ".xls", ".csv"]

/-- Line 13 of the source: the broader extraction-capable extension set. -/
def SUPPORTED_EXTENSIONS_UNSTRUCTURED : List String :=
  [".csv", ".eml", ".msg", ".epub", ".xlsx", ".xls", ".html", ".htm", ".md",
   ".markdown", ".pdf", ".txt", ".pptx", ".docx", ".xml"]

/-- The `Document` class (lines 41-50): used both for desired documents
(built from Wimi listings, `workspace_id` set) and for existing sink documents
(built from the Dify listing with `date = created_at`, `workspace_id` absent).
`mime_type` is carried nowhere relevant and omitted. -/
structure Document where
  name : String
  id : Nat
  date : Int
  workspace_id : Option Nat := none
deriving DecidableEq, Repr

/-- One raw entry of a Wimi folder listing (the dict `d` in
`WimiFileSource.list_files`, lines 299-307): the fields the loop reads.
`date` stands for the already-parsed `convert_to_timestamp(d["date"])`. -/
structure WimiEntry where
  name : String
  extension : String
  file_id : Nat
  date : Int
deriving DecidableEq, Repr

/-- Python `filename.split('.')` on the character level:
`""` yields `[[]]`, and separators at the ends yield empty segments. -/
def splitDotChars : List Char → List (List Char)
  | [] => [[]]
  | c :: cs =>
    if c = '.' then [] :: splitDotChars cs
    else
      match splitDotChars cs with
      | [] => [[c]]
      | p :: ps => (c :: p) :: ps

/-- Python `filename.split('.')` (line 391). -/
def splitDot (s : String) : List String :=
  (splitDotChars s.data).map String.mk

/-- Python `'.'.join(parts)` (line 395). -/
def joinDot (l : List String) : String :=
  String.intercalate "." l

/-- The `while parts[-1] == parts[-2]` loop of `remove_multiple_extensions`
(lines 393-394), acting on the REVERSED part list (head = Python `parts[-1]`).
A list that shrinks below two elements makes Python evaluate `parts[-2]` on a
one-element list, raising `IndexError`: embedded as `none`. -/
def collapseTrailingDups : List String → Option (List String)
  | x :: y :: rest => if x = y then collapseTrailingDups (y :: rest) else some (x :: y :: rest)
  | _ => none

/-- `remove_multiple_extensions` (lines 390-396). `none` = `IndexError`. -/
def remove_multiple_extensions (filename : String) : Option String :=
  let parts := splitDot filename
  if parts.length > 2 then
    (collapseTrailingDups parts.reverse).map (fun r => joinDot r.reverse)
  else some filename

/-- Python `os.path.splitext` on a slash-free name, on the character level:
split at the last dot provided some earlier character of the name is not a
dot (so ".bashrc"-style names keep an empty extension). Returns
(root, extension); the extension includes its leading dot. -/
def splitextChars (cs : List Char) : List Char × List Char :=
  match cs.reverse.dropWhile (fun c => c != '.') with
  | [] => (cs, [])
  | _ :: before =>
    if before.any (fun c => c != '.') then
      (before.reverse, '.' :: (cs.reverse.takeWhile (fun c => c != '.')).reverse)
    else (cs, [])

/-- Python `os.path.splitext(name)` for the names handled here. -/
def splitext (s : String) : String × String :=
  (String.mk (splitextChars s.data).1, String.mk (splitextChars s.data).2)

/-- `WimiFileSource.__init__`, line 228: the run-wide choice of supported
extension set, from the `UNSTRUCTURED` environment flag. -/
def activeExtensions (unstructuredFlag : Bool) : List String :=
  if unstructuredFlag then SUPPORTED_EXTENSIONS_UNSTRUCTURED else SUPPORTED_EXTENSIONS_DIFY

/-- `WimiFileSource.list_files`, lines 298-309: build `Document`s from the raw
listing, keeping an entry iff `'.' + d["extension"]` is in the active set;
kept entries get `remove_multiple_extensions(d["name"])` as their name, which
can raise (`none` aborts the whole call, as the Python loop would). -/
def list_files (project_id : Nat) (entries : List WimiEntry) (extensions : List String) :
    Option (List Document) :=
  match entries with
  | [] => some []
  | e :: rest =>
    if ("." ++ e.extension) ∈ extensions then
      match remove_multiple_extensions e.name, list_files project_id rest extensions with
      | some nm, some fs =>
        some ({ name := nm, id := e.file_id, date := e.date, workspace_id := some project_id } :: fs)
      | _, _ => none
    else list_files project_id rest extensions

/-- One observable side effect of the reconciler against source or sink. -/
inductive Op where
  | download (file_id : Nat)
  | create (name : String) (content : List Nat)
  | update (doc_id : Nat) (name : String) (content : List Nat)
  | delete (doc_id : Nat)
deriving DecidableEq, Repr

def Op.isCreate : Op → Bool
  | Op.create _ _ => true
  | _ => false

def Op.isUpdate : Op → Bool
  | Op.update _ _ _ => true
  | _ => false

def Op.isDelete : Op → Bool
  | Op.delete _ => true
  | _ => false

/-- Counts the sink-mutating operations (creates, updates, deletes). -/
def countCUD (ops : List Op) : Nat :=
  ops.countP (fun o => o.isCreate || o.isUpdate || o.isDelete)

def isCreateNamed (n : String) : Op → Bool
  | Op.create m _ => m == n
  | _ => false

/-- One step of Python `max(l, key=lambda x: x.date)`: a later element
replaces the current maximum only when strictly more recent. -/
def maxByDateStep (acc y : Document) : Document :=
  if acc.date < y.date then y else acc

/-- Python `max(l, key=lambda x: x.date)` (line 436): the first element whose
date no later element strictly exceeds. `none` on an empty list. -/
def pyMax : List Document → Option Document
  | [] => none
  | x :: xs => some (xs.foldl maxByDateStep x)

/-- Stable insertion for descending-by-date order, matching the stability of
Python `sorted(..., key=lambda x: x.date, reverse=True)` (line 439). -/
def insertDesc (x : Document) : List Document → List Document
  | [] => [x]
  | y :: ys => if x.date < y.date then y :: insertDesc x ys else x :: y :: ys

/-- Python `sorted(l, key=lambda x: x.date, reverse=True)`. -/
def sortDesc : List Document → List Document
  | [] => []
  | x :: xs => insertDesc x (sortDesc xs)

/-- `[d for d in existing_documents if d.name == document_name]` (line 435). -/
def sameName (existing : List Document) (n : String) : List Document :=
  existing.filter (fun d => d.name == n)

/-- Lines 438-441: delete every same-named entry except the head of the
descending sort (`sorted(...)[1:]`). -/
def dupDeleteOps (existing : List Document) (n : String) : List Op :=
  ((sortDesc (sameName existing n)).drop 1).map (fun d => Op.delete d.id)

/-- Lines 443-448: the update decision. The extension compared against the
extraction-capable set is `'.' + os.path.splitext(file.name)[1]` — the source
prepends a dot to a splitext result that already carries one. -/
def updateOps (fetch : Nat → List Nat) (file existing_document : Document) : List Op :=
  if existing_document.date ≤ file.date then
    if ("." ++ (splitext file.name).2) ∈ SUPPORTED_EXTENSIONS_UNSTRUCTURED then
      [Op.download file.id, Op.update existing_document.id file.name (fetch file.id)]
    else []
  else []

/-- Lines 453-461, effects on the success path: the content is downloaded
first, then uploaded only if `os.path.splitext(file.name)[1]` is in the
extraction-capable set. -/
def createOps (fetch : Nat → List Nat) (file : Document) : List Op :=
  Op.download file.id ::
    (if (splitext file.name).2 ∈ SUPPORTED_EXTENSIONS_UNSTRUCTURED then
      [Op.create file.name (fetch file.id)]
    else [])

/-- The body of the `for file in tqdm(all_documents)` loop (lines 429-471),
effects on the success path, against the run's snapshot `existing` of the
sink's document list. -/
def processDoc (fetch : Nat → List Nat) (existing : List Document)
    (remove_duplicates : Bool) (file : Document) : List Op :=
  if file.name ∈ existing.map Document.name then
    match pyMax (sameName existing file.name) with
    | none => []
    | some existing_document =>
      (if remove_duplicates = true ∧ 1 < (sameName existing file.name).length then
        dupDeleteOps existing file.name
      else []) ++ updateOps fetch file existing_document
  else createOps fetch file

/-- Lines 473-477: the orphan pass over the snapshot, deleting every existing
document whose name is not among the desired names. -/
def orphanOps (all_documents existing : List Document) : List Op :=
  (existing.filter (fun d => decide (d.name ∉ all_documents.map Document.name))).map
    (fun d => Op.delete d.id)

/-- `synchronize_with_dify` (lines 421-477), effects on the success path:
the per-document pass over the desired list in order, then the orphan pass.
`existing` is the snapshot fetched once at line 422; the source never
refreshes it during the run. -/
def synchronize_with_dify (fetch : Nat → List Nat) (all_documents existing : List Document)
    (remove_duplicates : Bool) : List Op :=
  (all_documents.flatMap (processDoc fetch existing remove_duplicates)) ++
    orphanOps all_documents existing

/-- How one sink-mutating operation transforms the sink's document list:
deletes remove by id, creates append a sink-stamped entry (the sink chooses
id and creation time; `stamp n` is the entry it stores for an upload named
`n`), and updates keep the entry in place. -/
def applyOp (stamp : String → Document) (existing : List Document) : Op → List Document
  | Op.delete i => existing.filter (fun d => decide (d.id ≠ i))
  | Op.create n _ => existing ++ [stamp n]
  | _ => existing

/-- The sink state after a run's operations are applied in order. -/
def applyOps (stamp : String → Document) (existing : List Document) (ops : List Op) :
    List Document :=
  ops.foldl (applyOp stamp) existing

/-- The ids targeted by the delete operations of a run. -/
def deletedIds (ops : List Op) : List Nat :=
  ops.filterMap (fun o => match o with | Op.delete i => some i | _ => none)

/-- The names carried by the create operations of a run. -/
def createdNames (ops : List Op) : List String :=
  ops.filterMap (fun o => match o with | Op.create n _ => some n | _ => none)

/-- Outcome of one iteration of the new-document branch. -/
structure CreateAttemptResult where
  uploadAttempts : Nat
  errorSurfaced : Bool
deriving DecidableEq, Repr

/-- Lines 453-467, with the fallible effects explicit: the `try` block fetches
content and, for an extraction-capable extension, uploads it; any exception
reaches the `except` block, which calls `upload_document` once more with the
variable `content_stream`. That variable is only bound by a previous
successful fetch in the run (`prior_content`): when the fetch of this very
document failed and no earlier iteration bound it, the `except` block raises
`NameError` before any upload. `firstUploadOk` and `secondUploadOk` tell
whether the first and second upload call of this iteration return a document
(an answer without one raises `KeyError`, lines 127-132). -/
def create_new_document (file : Document) (prior_content : Option (List Nat))
    (fetched : Option (List Nat)) (firstUploadOk secondUploadOk : Bool) :
    CreateAttemptResult :=
  match fetched with
  | some _ =>
    if (splitext file.name).2 ∈ SUPPORTED_EXTENSIONS_UNSTRUCTURED then
      if firstUploadOk then ⟨1, false⟩
      else if secondUploadOk then ⟨2, false⟩ else ⟨2, true⟩
    else ⟨0, false⟩
  | none =>
    match prior_content with
    | none => ⟨0, true⟩
    | some _ => if firstUploadOk then ⟨1, false⟩ else ⟨1, true⟩

/-- Outcome of `DifyKnowledgeClient.update_document`. -/
structure UpdateResult where
  ops : List Op
  errorSurfaced : Bool
deriving DecidableEq, Repr

/-- `DifyKnowledgeClient.update_document` (lines 159-185): post the update;
if the answer carries no `document` key (`responseHasDocument = false`, the
sink rejected the content), catch the `KeyError`, delete the existing entry
and upload a fresh document with the same name and content. A missing
`document` key in the fallback upload's own answer makes `upload_document`
raise, which propagates (`fallbackUploadOk = false`). -/
def update_document (document_name : String) (document_id : Nat)
    (document_content : List Nat) (responseHasDocument : Bool)
    (fallbackUploadOk : Bool) : UpdateResult :=
  if responseHasDocument then
    ⟨[Op.update document_id document_name document_content], false⟩
  else
    ⟨[Op.update document_id document_name document_content,
      Op.delete document_id,
      Op.create document_name document_content], !fallbackUploadOk⟩

/-! Helper lemmas. -/

theorem splitextChars_snd_shape (cs : List Char) :
    (splitextChars cs).2 = [] ∨ ∃ t, (splitextChars cs).2 = '.' :: t := by
  unfold splitextChars
  split
  · exact Or.inl rfl
  · split
    · exact Or.inr ⟨_, rfl⟩
    · exact Or.inl rfl

theorem supported_second_char :
    ∀ m ∈ SUPPORTED_EXTENSIONS_UNSTRUCTURED, m.data.get? 1 ≠ some '.' := by decide

/-- The extension string computed at line 444 (`'.' + os.path.splitext(...)[1]`)
is never a member of the extraction-capable set: it is either "." alone or
starts with two dots, while every member starts with a dot and a letter. -/
theorem dotted_ext_not_supported (s : String) :
    ("." ++ (splitext s).2) ∉ SUPPORTED_EXTENSIONS_UNSTRUCTURED := by
  rcases splitextChars_snd_shape s.data with h | ⟨t, h⟩
  · have h2 : (splitext s).2 = String.mk [] := by simp [splitext, h]
    rw [h2]; decide
  · have h2 : (splitext s).2 = String.mk ('.' :: t) := by simp [splitext, h]
    rw [h2]
    intro hmem
    have h3 : ("." ++ String.mk ('.' :: t)) = String.mk ('.' :: '.' :: t) := rfl
    rw [h3] at hmem
    exact supported_second_char _ hmem rfl

/-- Consequently the update decision of lines 443-447 never reaches the
sink's update call: the update branch contributes no operations. -/
theorem updateOps_eq_nil (fetch : Nat → List Nat) (file ed : Document) :
    updateOps fetch file ed = [] := by
  unfold updateOps
  split
  · rw [if_neg (dotted_ext_not_supported file.name)]
  · rfl

theorem foldl_maxByDateStep (l : List Document) : ∀ x : Document,
    (l.foldl maxByDateStep x = x ∨ l.foldl maxByDateStep x ∈ l) ∧
    x.date ≤ (l.foldl maxByDateStep x).date ∧
    ∀ y ∈ l, y.date ≤ (l.foldl maxByDateStep x).date := by
  induction l with
  | nil => intro x; simp
  | cons y ys ih =>
    intro x
    rw [List.foldl_cons]
    obtain ⟨h1, h2, h3⟩ := ih (maxByDateStep x y)
    refine ⟨?_, ?_, ?_⟩
    · rcases h1 with h | h
      · rw [h]; unfold maxByDateStep; split
        · exact Or.inr (List.mem_cons_self ..)
        · exact Or.inl rfl
      · exact Or.inr (List.mem_cons_of_mem _ h)
    · refine le_trans ?_ h2
      unfold maxByDateStep; split <;> omega
    · intro z hz
      rcases List.mem_cons.mp hz with rfl | hz
      · refine le_trans ?_ h2
        unfold maxByDateStep; split <;> omega
      · exact h3 z hz

theorem pyMax_spec (x : Document) (xs : List Document) :
    ∃ M, pyMax (x :: xs) = some M ∧ M ∈ x :: xs ∧ ∀ y ∈ x :: xs, y.date ≤ M.date := by
  obtain ⟨h1, h2, h3⟩ := foldl_maxByDateStep xs x
  refine ⟨xs.foldl maxByDateStep x, rfl, ?_, ?_⟩
  · rcases h1 with h | h
    · rw [h]; exact List.mem_cons_self ..
    · exact List.mem_cons_of_mem _ h
  · intro y hy
    rcases List.mem_cons.mp hy with rfl | hy
    · exact h2
    · exact h3 y hy

theorem pyMax_unique (l : List Document) (M : Document) (hM : M ∈ l)
    (hu : ∀ z ∈ l, z ≠ M → z.date < M.date) : pyMax l = some M := by
  cases l with
  | nil => exact absurd hM (List.not_mem_nil M)
  | cons x xs =>
    obtain ⟨N, hN, hNmem, hNmax⟩ := pyMax_spec x xs
    by_cases hNM : N = M
    · rw [hN, hNM]
    · have hlt := hu N hNmem hNM
      have hle := hNmax M hM
      omega

theorem insertDesc_perm (x : Document) (l : List Document) :
    List.Perm (insertDesc x l) (x :: l) := by
  induction l with
  | nil => simp [insertDesc]
  | cons y ys ih =>
    unfold insertDesc; split
    · exact List.Perm.trans (List.Perm.cons y ih) (List.Perm.swap x y ys)
    · exact List.Perm.refl _

theorem sortDesc_perm (l : List Document) : List.Perm (sortDesc l) l := by
  induction l with
  | nil => exact List.Perm.refl _
  | cons x xs ih =>
    exact List.Perm.trans (insertDesc_perm x (sortDesc xs)) (List.Perm.cons x ih)

theorem insertDesc_pairwise (x : Document) (l : List Document)
    (h : l.Pairwise (fun a b => b.date ≤ a.date)) :
    (insertDesc x l).Pairwise (fun a b => b.date ≤ a.date) := by
  induction l with
  | nil => simp [insertDesc]
  | cons y ys ih =>
    rw [List.pairwise_cons] at h
    obtain ⟨hy, hys⟩ := h
    unfold insertDesc; split
    · rename_i hlt
      rw [List.pairwise_cons]
      refine ⟨?_, ih hys⟩
      intro z hz
      have hz2 := (insertDesc_perm x ys).mem_iff.mp hz
      rcases List.mem_cons.mp hz2 with rfl | hz3
      · omega
      · exact hy z hz3
    · rename_i hge
      rw [List.pairwise_cons]
      refine ⟨?_, List.Pairwise.cons hy hys⟩
      intro z hz
      rcases List.mem_cons.mp hz with rfl | hz2
      · omega
      · exact le_trans (hy z hz2) (by omega)

theorem sortDesc_pairwise (l : List Document) :
    (sortDesc l).Pairwise (fun a b => b.date ≤ a.date) := by
  induction l with
  | nil => simp [sortDesc]
  | cons x xs ih => exact insertDesc_pairwise x (sortDesc xs) ih

theorem sortDesc_cons_of_ne_nil (l : List Document) (hl : l ≠ []) :
    ∃ h t, sortDesc l = h :: t := by
  cases hsd : sortDesc l with
  | nil =>
    have hlen := (sortDesc_perm l).length_eq
    rw [hsd] at hlen
    exact absurd (List.eq_nil_of_length_eq_zero hlen.symm) hl
  | cons h t => exact ⟨h, t, rfl⟩

theorem sortDesc_head_max (l : List Document) (h : Document) (t : List Document)
    (hs : sortDesc l = h :: t) : ∀ y ∈ l, y.date ≤ h.date := by
  intro y hy
  have hy2 : y ∈ h :: t := hs ▸ (sortDesc_perm l).mem_iff.mpr hy
  rcases List.mem_cons.mp hy2 with rfl | hyt
  · exact le_refl _
  · have hp := sortDesc_pairwise l
    rw [hs, List.pairwise_cons] at hp
    exact hp.1 y hyt

theorem sortDesc_unique_head (l : List Document) (M : Document) (hM : M ∈ l)
    (hu : ∀ z ∈ l, z ≠ M → z.date < M.date) : ∃ t, sortDesc l = M :: t := by
  obtain ⟨h, t, hs⟩ := sortDesc_cons_of_ne_nil l (List.ne_nil_of_mem hM)
  have hh : h ∈ l := (sortDesc_perm l).mem_iff.mp (hs ▸ List.mem_cons_self ..)
  by_cases hhM : h = M
  · exact ⟨t, hhM ▸ hs⟩
  · have hlt := hu h hh hhM
    have hle := sortDesc_head_max l h t hs M hM
    omega

theorem collapse_replicate (s : String) : ∀ n, 1 ≤ n →
    collapseTrailingDups (List.replicate n s) = none := by
  intro n
  induction n with
  | zero => intro h; exact absurd h (by omega)
  | succ k ih =>
    intro _
    cases k with
    | zero => rfl
    | succ m =>
      have h1 : List.replicate (m + 2) s = s :: s :: List.replicate m s := by
        simp [List.replicate_succ]
      rw [h1]
      have h2 : collapseTrailingDups (s :: s :: List.replicate m s) =
          collapseTrailingDups (s :: List.replicate m s) := by
        simp [collapseTrailingDups]
      rw [h2, ← List.replicate_succ]
      exact ih (by omega)

theorem mem_sameName (E : List Document) (n : String) (d : Document) :
    d ∈ sameName E n ↔ d ∈ E ∧ d.name = n := by
  simp [sameName]

theorem sameName_ne_nil (E : List Document) (n : String)
    (hin : n ∈ E.map Document.name) : sameName E n ≠ [] := by
  obtain ⟨d, hd, hdn⟩ := List.mem_map.mp hin
  intro h
  have hmem : d ∈ sameName E n := (mem_sameName E n d).mpr ⟨hd, hdn⟩
  rw [h] at hmem
  exact List.not_mem_nil _ hmem

theorem pyMax_isSome_of_ne_nil (l : List Document) (h : l ≠ []) :
    ∃ M, pyMax l = some M := by
  cases l with
  | nil => exact absurd rfl h
  | cons x xs => exact ⟨_, rfl⟩

theorem processDoc_present (fetch : Nat → List Nat) (E : List Document) (rd : Bool)
    (f M : Document) (hin : f.name ∈ E.map Document.name)
    (hM : pyMax (sameName E f.name) = some M) :
    processDoc fetch E rd f =
      (if rd = true ∧ 1 < (sameName E f.name).length then dupDeleteOps E f.name else []) := by
  unfold processDoc
  rw [if_pos hin]
  split
  · rename_i heq
    rw [hM] at heq
    exact absurd heq (by simp)
  · rename_i ed heq
    rw [hM] at heq
    injection heq with h
    subst h
    simp only [updateOps_eq_nil, List.append_nil]

theorem processDoc_absent (fetch : Nat → List Nat) (E : List Document) (rd : Bool)
    (f : Document) (hout : f.name ∉ E.map Document.name) :
    processDoc fetch E rd f = createOps fetch f := by
  unfold processDoc
  rw [if_neg hout]

theorem delete_mem_processDoc (fetch : Nat → List Nat) (E : List Document) (rd : Bool)
    (f : Document) (i : Nat) (h : Op.delete i ∈ processDoc fetch E rd f) :
    ∃ d, d ∈ (sortDesc (sameName E f.name)).drop 1 ∧ d.id = i := by
  by_cases hin : f.name ∈ E.map Document.name
  · obtain ⟨M, hM⟩ := pyMax_isSome_of_ne_nil _ (sameName_ne_nil E f.name hin)
    rw [processDoc_present fetch E rd f M hin hM] at h
    split at h
    · unfold dupDeleteOps at h
      obtain ⟨d, hd, hdi⟩ := List.mem_map.mp h
      refine ⟨d, hd, ?_⟩
      injection hdi with h2
    · exact absurd h (List.not_mem_nil _)
  · rw [processDoc_absent fetch E rd f hin] at h
    unfold createOps at h
    rcases List.mem_cons.mp h with h | h
    · exact absurd h (by simp)
    · split at h <;> simp_all

theorem create_mem_processDoc (fetch : Nat → List Nat) (E : List Document) (rd : Bool)
    (f : Document) (n : String) (c : List Nat)
    (h : Op.create n c ∈ processDoc fetch E rd f) :
    f.name ∉ E.map Document.name ∧ n = f.name ∧ c = fetch f.id ∧
      (splitext f.name).2 ∈ SUPPORTED_EXTENSIONS_UNSTRUCTURED := by
  by_cases hin : f.name ∈ E.map Document.name
  · obtain ⟨M, hM⟩ := pyMax_isSome_of_ne_nil _ (sameName_ne_nil E f.name hin)
    rw [processDoc_present fetch E rd f M hin hM] at h
    split at h
    · unfold dupDeleteOps at h
      obtain ⟨d, _, hdi⟩ := List.mem_map.mp h
      exact absurd hdi (by simp)
    · exact absurd h (List.not_mem_nil _)
  · rw [processDoc_absent fetch E rd f hin] at h
    unfold createOps at h
    rcases List.mem_cons.mp h with h | h
    · exact absurd h (by simp)
    · split at h
      · rename_i hsupp
        rcases List.mem_singleton.mp h with h2
        injection h2 with hn hc
        exact ⟨hin, hn, hc, hsupp⟩
      · exact absurd h (List.not_mem_nil _)

theorem deletedIds_append (l₁ l₂ : List Op) :
    deletedIds (l₁ ++ l₂) = deletedIds l₁ ++ deletedIds l₂ :=
  List.filterMap_append ..

theorem createdNames_append (l₁ l₂ : List Op) :
    createdNames (l₁ ++ l₂) = createdNames l₁ ++ createdNames l₂ :=
  List.filterMap_append ..

theorem deletedIds_cons_delete (i : Nat) (ops : List Op) :
    deletedIds (Op.delete i :: ops) = i :: deletedIds ops := rfl

theorem deletedIds_cons_create (n : String) (c : List Nat) (ops : List Op) :
    deletedIds (Op.create n c :: ops) = deletedIds ops := rfl

theorem deletedIds_cons_download (i : Nat) (ops : List Op) :
    deletedIds (Op.download i :: ops) = deletedIds ops := rfl

theorem deletedIds_cons_update (i : Nat) (n : String) (c : List Nat) (ops : List Op) :
    deletedIds (Op.update i n c :: ops) = deletedIds ops := rfl

theorem createdNames_cons_delete (i : Nat) (ops : List Op) :
    createdNames (Op.delete i :: ops) = createdNames ops := rfl

theorem createdNames_cons_create (n : String) (c : List Nat) (ops : List Op) :
    createdNames (Op.create n c :: ops) = n :: createdNames ops := rfl

theorem createdNames_cons_download (i : Nat) (ops : List Op) :
    createdNames (Op.download i :: ops) = createdNames ops := rfl

theorem createdNames_cons_update (i : Nat) (n : String) (c : List Nat) (ops : List Op) :
    createdNames (Op.update i n c :: ops) = createdNames ops := rfl

theorem applyOps_split (stamp : String → Document) :
    ∀ (ops : List Op) (E : List Document),
    (∀ i ∈ deletedIds ops, ∀ n ∈ createdNames ops, (stamp n).id ≠ i) →
    applyOps stamp E ops =
      E.filter (fun d => decide (d.id ∉ deletedIds ops)) ++ (createdNames ops).map stamp := by
  intro ops
  induction ops with
  | nil =>
    intro E _
    simp only [applyOps, List.foldl_nil, createdNames, List.filterMap_nil, List.map_nil,
      List.append_nil]
    exact (List.filter_eq_self.mpr (fun d _ => by simp [deletedIds])).symm
  | cons op rest ih =>
    intro E h
    cases op with
    | download fid =>
      rw [deletedIds_cons_download, createdNames_cons_download] at h ⊢
      exact ih E h
    | update i n c =>
      rw [deletedIds_cons_update, createdNames_cons_update] at h ⊢
      exact ih E h
    | delete i =>
      rw [deletedIds_cons_delete] at h ⊢
      rw [createdNames_cons_delete] at h ⊢
      have hstep : applyOps stamp E (Op.delete i :: rest) =
          applyOps stamp (E.filter (fun d => decide (d.id ≠ i))) rest := rfl
      rw [hstep, ih _ (fun j hj n hn => h j (List.mem_cons_of_mem _ hj) n hn)]
      have hff : (E.filter (fun d => decide (d.id ≠ i))).filter
            (fun d => decide (d.id ∉ deletedIds rest)) =
          E.filter (fun d => decide (d.id ∉ i :: deletedIds rest)) := by
        rw [List.filter_filter]
        apply List.filter_congr
        intro d _
        have hiff : ((d.id ∉ deletedIds rest) ∧ (d.id ≠ i)) ↔ (d.id ∉ i :: deletedIds rest) := by
          simp only [List.mem_cons, not_or]
          tauto
        apply Bool.eq_iff_iff.mpr
        simp only [Bool.and_eq_true, decide_eq_true_eq]
        exact hiff
      rw [hff]
    | create n c =>
      rw [deletedIds_cons_create] at h ⊢
      rw [createdNames_cons_create] at h ⊢
      have hstep : applyOps stamp E (Op.create n c :: rest) =
          applyOps stamp (E ++ [stamp n]) rest := rfl
      rw [hstep, ih _ (fun j hj m hm => h j hj m (List.mem_cons_of_mem _ hm))]
      rw [List.filter_append]
      have hkeep : ([stamp n].filter (fun d => decide (d.id ∉ deletedIds rest))) = [stamp n] := by
        apply List.filter_eq_self.mpr
        intro d hd
        rcases List.mem_singleton.mp hd with rfl
        exact decide_eq_true (fun hmem => h _ hmem n (List.mem_cons_self ..) rfl)
      rw [hkeep, List.map_cons, List.append_assoc]
      rfl

theorem sync_ops_shape (fetch : Nat → List Nat) (D E : List Document) (rd : Bool) :
    synchronize_with_dify fetch D E rd =
      (D.flatMap (processDoc fetch E rd)) ++ orphanOps D E := rfl

theorem deletedIds_sync_sources (fetch : Nat → List Nat) (D E : List Document) (rd : Bool)
    (i : Nat) (h : i ∈ deletedIds (synchronize_with_dify fetch D E rd)) :
    (∃ g ∈ D, ∃ d, d ∈ (sortDesc (sameName E g.name)).drop 1 ∧ d.id = i) ∨
    (∃ e ∈ E, e.name ∉ D.map Document.name ∧ e.id = i) := by
  rw [sync_ops_shape, deletedIds_append] at h
  rcases List.mem_append.mp h with h | h
  · left
    obtain ⟨o, ho, hoi⟩ := List.mem_filterMap.mp h
    obtain ⟨g, hg, hog⟩ := List.mem_flatMap.mp ho
    cases o with
    | download fid => exact absurd hoi (by simp)
    | create n c => exact absurd hoi (by simp)
    | update j n c => exact absurd hoi (by simp)
    | delete j =>
      have hji : j = i := by injection hoi
      subst hji
      obtain ⟨d, hd, hdi⟩ := delete_mem_processDoc fetch E rd g j hog
      exact ⟨g, hg, d, hd, hdi⟩
  · right
    obtain ⟨o, ho, hoi⟩ := List.mem_filterMap.mp h
    unfold orphanOps at ho
    obtain ⟨e, he, heo⟩ := List.mem_map.mp ho
    obtain ⟨he2, he3⟩ := List.mem_filter.mp he
    refine ⟨e, he2, of_decide_eq_true he3, ?_⟩
    rw [← heo] at hoi
    injection hoi with h2

theorem deletedIds_sync_target (fetch : Nat → List Nat) (D E : List Document) (rd : Bool)
    (i : Nat) (h : i ∈ deletedIds (synchronize_with_dify fetch D E rd)) :
    ∃ e ∈ E, e.id = i := by
  rcases deletedIds_sync_sources fetch D E rd i h with ⟨g, _, d, hd, hdi⟩ | ⟨e, he, _, hei⟩
  · have hd2 : d ∈ sortDesc (sameName E g.name) := List.mem_of_mem_drop hd
    have hd3 : d ∈ sameName E g.name := (sortDesc_perm _).mem_iff.mp hd2
    exact ⟨d, ((mem_sameName E g.name d).mp hd3).1, hdi⟩
  · exact ⟨e, he, hei⟩

theorem createdNames_processDoc (fetch : Nat → List Nat) (E : List Document) (rd : Bool)
    (g : Document) :
    createdNames (processDoc fetch E rd g) =
      (if g.name ∉ E.map Document.name ∧
          (splitext g.name).2 ∈ SUPPORTED_EXTENSIONS_UNSTRUCTURED
        then [g.name] else []) := by
  by_cases hin : g.name ∈ E.map Document.name
  · obtain ⟨M, hM⟩ := pyMax_isSome_of_ne_nil _ (sameName_ne_nil E g.name hin)
    rw [processDoc_present fetch E rd g M hin hM]
    rw [if_neg (show ¬(g.name ∉ E.map Document.name ∧
        (splitext g.name).2 ∈ SUPPORTED_EXTENSIONS_UNSTRUCTURED) from fun hc => hc.1 hin)]
    split
    · unfold dupDeleteOps
      unfold createdNames
      rw [List.filterMap_map]
      exact List.filterMap_eq_nil_iff.mpr (fun d _ => rfl)
    · rfl
  · rw [processDoc_absent fetch E rd g hin]
    unfold createOps
    by_cases hsupp : (splitext g.name).2 ∈ SUPPORTED_EXTENSIONS_UNSTRUCTURED
    · rw [if_pos hsupp, if_pos ⟨hin, hsupp⟩]
      rfl
    · rw [if_neg hsupp, if_neg (fun hc : _ ∧ _ => hsupp hc.2)]
      rfl

theorem createdNames_orphanOps (D E : List Document) :
    createdNames (orphanOps D E) = [] := by
  unfold orphanOps createdNames
  rw [List.filterMap_map]
  exact List.filterMap_eq_nil_iff.mpr (fun d _ => rfl)

theorem createdNames_sync (fetch : Nat → List Nat) (D E : List Document) (rd : Bool) :
    createdNames (synchronize_with_dify fetch D E rd) =
      (D.filter (fun f => decide (f.name ∉ E.map Document.name) &&
        decide ((splitext f.name).2 ∈ SUPPORTED_EXTENSIONS_UNSTRUCTURED))).map
        Document.name := by
  rw [sync_ops_shape, createdNames_append, createdNames_orphanOps, List.append_nil]
  induction D with
  | nil => rfl
  | cons g D' ih =>
    rw [List.flatMap_cons, createdNames_append, ih, List.filter_cons,
      createdNames_processDoc]
    by_cases hab : g.name ∉ E.map Document.name
    · by_cases hsupp : (splitext g.name).2 ∈ SUPPORTED_EXTENSIONS_UNSTRUCTURED
      · rw [if_pos ⟨hab, hsupp⟩]
        have hb : (decide (g.name ∉ E.map Document.name) &&
            decide ((splitext g.name).2 ∈ SUPPORTED_EXTENSIONS_UNSTRUCTURED)) = true := by
          simp [hab, hsupp]
        rw [hb, if_pos rfl]
        rfl
      · rw [if_neg (show ¬(g.name ∉ E.map Document.name ∧
            (splitext g.name).2 ∈ SUPPORTED_EXTENSIONS_UNSTRUCTURED) from
            fun hc => hsupp hc.2)]
        have hb : (decide (g.name ∉ E.map Document.name) &&
            decide ((splitext g.name).2 ∈ SUPPORTED_EXTENSIONS_UNSTRUCTURED)) = false := by
          simp [hsupp]
        rw [hb]
        simp
    · rw [if_neg (show ¬(g.name ∉ E.map Document.name ∧
          (splitext g.name).2 ∈ SUPPORTED_EXTENSIONS_UNSTRUCTURED) from
          fun hc => hab hc.1)]
      have hb : (decide (g.name ∉ E.map Document.name) &&
          decide ((splitext g.name).2 ∈ SUPPORTED_EXTENSIONS_UNSTRUCTURED)) = false := by
        simp at hab
        simp [hab]
      rw [hb]
      simp

theorem applyOps_sync (fetch : Nat → List Nat) (stamp : String → Document)
    (D E : List Document) (rd : Bool)
    (hfresh : ∀ n, (stamp n).id ∉ E.map Document.id) :
    applyOps stamp E (synchronize_with_dify fetch D E rd) =
      E.filter (fun d => decide (d.id ∉ deletedIds (synchronize_with_dify fetch D E rd))) ++
        (createdNames (synchronize_with_dify fetch D E rd)).map stamp := by
  apply applyOps_split
  intro i hi n _ heq
  obtain ⟨e, he, hei⟩ := deletedIds_sync_target fetch D E rd i hi
  apply hfresh n
  rw [heq, ← hei]
  exact List.mem_map_of_mem Document.id he

theorem sameName_map_id_nodup (E : List Document) (n : String)
    (hE : (E.map Document.id).Nodup) : ((sameName E n).map Document.id).Nodup :=
  List.Sublist.nodup (List.Sublist.map Document.id (List.filter_sublist E)) hE

theorem eq_of_mem_id (E : List Document) (hE : (E.map Document.id).Nodup)
    (a b : Document) (ha : a ∈ E) (hb : b ∈ E) (hid : a.id = b.id) : a = b :=
  List.inj_on_of_nodup_map hE ha hb hid

theorem head_id_not_in_tail (l : List Document) (h : Document) (t : List Document)
    (hs : sortDesc l = h :: t) (hnd : (l.map Document.id).Nodup) :
    h.id ∉ t.map Document.id := by
  have hnd2 : ((h :: t).map Document.id).Nodup := by
    refine List.Perm.nodup ?_ hnd
    rw [← hs]
    exact (List.Perm.map Document.id (sortDesc_perm l)).symm
  rw [List.map_cons, List.nodup_cons] at hnd2
  exact hnd2.1

theorem filter_name_le_one (l : List Document) (hnd : (l.map Document.name).Nodup)
    (n : String) : (l.filter (fun d => d.name == n)).length ≤ 1 := by
  induction l with
  | nil => simp
  | cons x xs ih =>
    rw [List.map_cons, List.nodup_cons] at hnd
    rw [List.filter_cons]
    by_cases hx : (x.name == n) = true
    · rw [if_pos hx]
      have hnone : xs.filter (fun d => d.name == n) = [] := by
        apply List.filter_eq_nil_iff.mpr
        intro d hd hdn
        apply hnd.1
        have h1 : x.name = n := beq_iff_eq.mp hx
        have h2 : d.name = n := beq_iff_eq.mp hdn
        rw [h1, ← h2]
        exact List.mem_map_of_mem Document.name hd
      simp [hnone]
    · rw [if_neg hx]
      exact ih hnd.2

theorem length_le_one_of_all_eq_of_nodup_ids (l : List Document)
    (hnd : (l.map Document.id).Nodup) (h : Document) (hall : ∀ d ∈ l, d = h) :
    l.length ≤ 1 := by
  match l, hnd, hall with
  | [], _, _ => simp
  | [a], _, _ => simp
  | a :: b :: t, hnd, hall =>
    exfalso
    rw [List.map_cons, List.map_cons, List.nodup_cons] at hnd
    apply hnd.1
    rw [hall a (by simp), hall b (by simp)]
    exact List.mem_cons_self ..

theorem orphan_delete_mem_sync (fetch : Nat → List Nat) (D E : List Document) (rd : Bool)
    (d : Document) (hdE : d ∈ E) (hno : d.name ∉ D.map Document.name) :
    d.id ∈ deletedIds (synchronize_with_dify fetch D E rd) := by
  rw [sync_ops_shape, deletedIds_append]
  apply List.mem_append_right
  apply List.mem_filterMap.mpr
  refine ⟨Op.delete d.id, ?_, rfl⟩
  unfold orphanOps
  exact List.mem_map_of_mem _ (List.mem_filter.mpr ⟨hdE, decide_eq_true hno⟩)

theorem dup_delete_mem_sync (fetch : Nat → List Nat) (D E : List Document)
    (g : Document) (hg : g ∈ D) (hin : g.name ∈ E.map Document.name)
    (hlen : 1 < (sameName E g.name).length) (d : Document)
    (hd : d ∈ (sortDesc (sameName E g.name)).drop 1) :
    d.id ∈ deletedIds (synchronize_with_dify fetch D E true) := by
  rw [sync_ops_shape, deletedIds_append]
  apply List.mem_append_left
  apply List.mem_filterMap.mpr
  refine ⟨Op.delete d.id, ?_, rfl⟩
  apply List.mem_flatMap.mpr
  refine ⟨g, hg, ?_⟩
  obtain ⟨M, hM⟩ := pyMax_isSome_of_ne_nil _ (sameName_ne_nil E g.name hin)
  rw [processDoc_present fetch E true g M hin hM, if_pos ⟨rfl, hlen⟩]
  unfold dupDeleteOps
  exact List.mem_map_of_mem _ hd

theorem sync_post_names_subset (fetch : Nat → List Nat) (stamp : String → Document)
    (D E : List Document) (rd : Bool)
    (hfresh : ∀ n, (stamp n).id ∉ E.map Document.id) (hsn : ∀ n, (stamp n).name = n)
    (d : Document) (hd : d ∈ applyOps stamp E (synchronize_with_dify fetch D E rd)) :
    d.name ∈ D.map Document.name := by
  rw [applyOps_sync fetch stamp D E rd hfresh] at hd
  rcases List.mem_append.mp hd with hd | hd
  · obtain ⟨hdE, hkeep⟩ := List.mem_filter.mp hd
    by_contra hno
    exact (of_decide_eq_true hkeep) (orphan_delete_mem_sync fetch D E rd d hdE hno)
  · obtain ⟨n, hn, hsn2⟩ := List.mem_map.mp hd
    rw [createdNames_sync] at hn
    obtain ⟨f, hf, hfn⟩ := List.mem_map.mp hn
    have hfD : f ∈ D := (List.mem_filter.mp hf).1
    rw [← hsn2, hsn n, ← hfn]
    exact List.mem_map_of_mem Document.name hfD

theorem sync_post_supported_present (fetch : Nat → List Nat) (stamp : String → Document)
    (D E : List Document) (rd : Bool) (hE : (E.map Document.id).Nodup)
    (hfresh : ∀ n, (stamp n).id ∉ E.map Document.id) (hsn : ∀ n, (stamp n).name = n)
    (f : Document) (hf : f ∈ D)
    (hsupp : (splitext f.name).2 ∈ SUPPORTED_EXTENSIONS_UNSTRUCTURED) :
    f.name ∈ (applyOps stamp E (synchronize_with_dify fetch D E rd)).map Document.name := by
  rw [applyOps_sync fetch stamp D E rd hfresh, List.map_append]
  by_cases hin : f.name ∈ E.map Document.name
  · apply List.mem_append_left
    obtain ⟨h, t, hs⟩ := sortDesc_cons_of_ne_nil _ (sameName_ne_nil E f.name hin)
    have hhmem : h ∈ sameName E f.name :=
      (sortDesc_perm _).mem_iff.mp (hs ▸ List.mem_cons_self ..)
    obtain ⟨hhE, hhname⟩ := (mem_sameName E f.name h).mp hhmem
    have hnotdel : h.id ∉ deletedIds (synchronize_with_dify fetch D E rd) := by
      intro hdel
      rcases deletedIds_sync_sources fetch D E rd h.id hdel with
        ⟨g, hg, d, hd, hdi⟩ | ⟨e, he, hor, hei⟩
      · have hd2 : d ∈ sameName E g.name :=
          (sortDesc_perm _).mem_iff.mp (List.mem_of_mem_drop hd)
        obtain ⟨hdE, hdname⟩ := (mem_sameName E g.name d).mp hd2
        have hdh : d = h := eq_of_mem_id E hE d h hdE hhE hdi
        have hgn : g.name = f.name := by rw [← hdname, hdh, hhname]
        rw [hgn, hs] at hd
        apply head_id_not_in_tail _ h t hs (sameName_map_id_nodup E f.name hE)
        rw [← hdh]
        exact List.mem_map_of_mem Document.id hd
      · have heh : e = h := eq_of_mem_id E hE e h he hhE hei
        apply hor
        rw [heh, hhname]
        exact List.mem_map_of_mem Document.name hf
    apply List.mem_map.mpr
    exact ⟨h, List.mem_filter.mpr ⟨hhE, decide_eq_true hnotdel⟩, hhname⟩
  · apply List.mem_append_right
    have hcr : f.name ∈ createdNames (synchronize_with_dify fetch D E rd) := by
      rw [createdNames_sync]
      refine List.mem_map_of_mem Document.name (List.mem_filter.mpr ⟨hf, ?_⟩)
      simp [hin, hsupp]
    apply List.mem_map.mpr
    exact ⟨stamp f.name, List.mem_map_of_mem stamp hcr, hsn f.name⟩

theorem sync_post_name_count (fetch : Nat → List Nat) (stamp : String → Document)
    (D E : List Document) (hD : (D.map Document.name).Nodup)
    (hE : (E.map Document.id).Nodup)
    (hfresh : ∀ n, (stamp n).id ∉ E.map Document.id) (hsn : ∀ n, (stamp n).name = n)
    (n : String) :
    ((applyOps stamp E (synchronize_with_dify fetch D E true)).filter
      (fun d => d.name == n)).length ≤ 1 := by
  rw [applyOps_sync fetch stamp D E true hfresh, List.filter_append, List.length_append]
  by_cases hinE : n ∈ E.map Document.name
  · have hB : ((createdNames (synchronize_with_dify fetch D E true)).map stamp).filter
        (fun d => d.name == n) = [] := by
      apply List.filter_eq_nil_iff.mpr
      intro x hx hbeq
      obtain ⟨m, hm, hmx⟩ := List.mem_map.mp hx
      rw [createdNames_sync] at hm
      obtain ⟨f, hf, hfm⟩ := List.mem_map.mp hm
      have habs : decide (f.name ∉ E.map Document.name) = true := by
        have := (List.mem_filter.mp hf).2
        exact (Bool.and_eq_true _ _).mp this |>.1
      have habs2 : f.name ∉ E.map Document.name := of_decide_eq_true habs
      apply habs2
      have hxn : x.name = n := beq_iff_eq.mp hbeq
      have hmn : m = n := by rw [← hsn m, hmx, hxn]
      rw [hfm, hmn]
      exact hinE
    rw [hB]
    simp only [List.length_nil, Nat.add_zero]
    by_cases hinD : n ∈ D.map Document.name
    · obtain ⟨g, hg, hgn⟩ := List.mem_map.mp hinD
      obtain ⟨h, t, hs⟩ := sortDesc_cons_of_ne_nil _ (sameName_ne_nil E n hinE)
      have hall : ∀ d ∈ (E.filter (fun d =>
          decide (d.id ∉ deletedIds (synchronize_with_dify fetch D E true)))).filter
            (fun d => d.name == n), d = h := by
        intro d hd
        obtain ⟨hd1, hdn⟩ := List.mem_filter.mp hd
        obtain ⟨hdE, hkeep⟩ := List.mem_filter.mp hd1
        have hdsn : d ∈ sameName E n :=
          (mem_sameName E n d).mpr ⟨hdE, beq_iff_eq.mp hdn⟩
        have hdst : d ∈ h :: t := by
          rw [← hs]
          exact (sortDesc_perm _).mem_iff.mpr hdsn
        rcases List.mem_cons.mp hdst with rfl | hdt
        · rfl
        · exfalso
          by_cases hlen : 1 < (sameName E n).length
          · apply of_decide_eq_true hkeep
            apply dup_delete_mem_sync fetch D E g hg (hgn ▸ hinE) (hgn ▸ hlen) d
            rw [hgn, hs]
            exact hdt
          · have hlen2 : (sortDesc (sameName E n)).length ≤ 1 := by
              rw [(sortDesc_perm (sameName E n)).length_eq]
              omega
            rw [hs] at hlen2
            simp only [List.length_cons] at hlen2
            have : t = [] := List.eq_nil_of_length_eq_zero (by omega)
            rw [this] at hdt
            exact List.not_mem_nil d hdt
      have hsub : List.Sublist ((E.filter (fun d =>
          decide (d.id ∉ deletedIds (synchronize_with_dify fetch D E true)))).filter
            (fun d => d.name == n)) E :=
        List.Sublist.trans (List.filter_sublist _) (List.filter_sublist _)
      exact length_le_one_of_all_eq_of_nodup_ids _
        (List.Sublist.nodup (List.Sublist.map Document.id hsub) hE) h hall
    · have hA : (E.filter (fun d =>
          decide (d.id ∉ deletedIds (synchronize_with_dify fetch D E true)))).filter
            (fun d => d.name == n) = [] := by
        apply List.filter_eq_nil_iff.mpr
        intro d hd hdn
        obtain ⟨hdE, hkeep⟩ := List.mem_filter.mp hd
        apply of_decide_eq_true hkeep
        apply orphan_delete_mem_sync fetch D E true d hdE
        rw [beq_iff_eq.mp hdn]
        exact hinD
      rw [hA]
      simp
  · have hA : (E.filter (fun d =>
        decide (d.id ∉ deletedIds (synchronize_with_dify fetch D E true)))).filter
          (fun d => d.name == n) = [] := by
      apply List.filter_eq_nil_iff.mpr
      intro d hd hdn
      apply hinE
      rw [← beq_iff_eq.mp hdn]
      exact List.mem_map_of_mem Document.name (List.mem_filter.mp hd).1
    rw [hA]
    simp only [List.length_nil, Nat.zero_add]
    have hnames : (((createdNames (synchronize_with_dify fetch D E true)).map stamp).map
        Document.name).Nodup := by
      have heq : ∀ l : List String, ((l.map stamp).map Document.name) = l := by
        intro l
        induction l with
        | nil => rfl
        | cons a l ih => rw [List.map_cons, List.map_cons, ih, hsn a]
      rw [heq, createdNames_sync]
      exact List.Sublist.nodup (List.Sublist.map Document.name (List.filter_sublist D)) hD
    exact filter_name_le_one _ hnames n

theorem countCUD_append (l₁ l₂ : List Op) :
    countCUD (l₁ ++ l₂) = countCUD l₁ + countCUD l₂ :=
  List.countP_append ..

theorem countCUD_orphan_zero (D E2 : List Document)
    (h : ∀ d ∈ E2, d.name ∈ D.map Document.name) :
    countCUD (orphanOps D E2) = 0 := by
  unfold countCUD orphanOps
  apply List.countP_eq_zero.mpr
  intro o ho _
  obtain ⟨d, hd, _⟩ := List.mem_map.mp ho
  obtain ⟨hd1, hd2⟩ := List.mem_filter.mp hd
  exact (of_decide_eq_true hd2) (h d hd1)

theorem countCUD_processDoc_zero (fetch : Nat → List Nat) (E2 : List Document) (rd : Bool)
    (f : Document)
    (hpres : f.name ∈ E2.map Document.name → ¬(rd = true ∧ 1 < (sameName E2 f.name).length))
    (habs : f.name ∉ E2.map Document.name →
      (splitext f.name).2 ∉ SUPPORTED_EXTENSIONS_UNSTRUCTURED) :
    countCUD (processDoc fetch E2 rd f) = 0 := by
  by_cases hin : f.name ∈ E2.map Document.name
  · obtain ⟨M, hM⟩ := pyMax_isSome_of_ne_nil _ (sameName_ne_nil E2 f.name hin)
    rw [processDoc_present fetch E2 rd f M hin hM, if_neg (hpres hin)]
    rfl
  · rw [processDoc_absent fetch E2 rd f hin]
    unfold createOps
    rw [if_neg (habs hin)]
    rfl

theorem countCUD_sync_zero (fetch : Nat → List Nat) (D E2 : List Document) (rd : Bool)
    (h1 : ∀ d ∈ E2, d.name ∈ D.map Document.name)
    (h2 : ∀ f ∈ D, (splitext f.name).2 ∈ SUPPORTED_EXTENSIONS_UNSTRUCTURED →
      f.name ∈ E2.map Document.name)
    (h3 : rd = true → ∀ n, (sameName E2 n).length ≤ 1) :
    countCUD (synchronize_with_dify fetch D E2 rd) = 0 := by
  rw [sync_ops_shape, countCUD_append, countCUD_orphan_zero D E2 h1, Nat.add_zero]
  have hper : ∀ f ∈ D, countCUD (processDoc fetch E2 rd f) = 0 := by
    intro f hf
    apply countCUD_processDoc_zero
    · intro hin hc
      have := h3 hc.1 f.name
      omega
    · intro hout hsupp
      exact hout (h2 f hf hsupp)
  have hflat : ∀ (L : List Document),
      (∀ f ∈ L, countCUD (processDoc fetch E2 rd f) = 0) →
      countCUD (L.flatMap (processDoc fetch E2 rd)) = 0 := by
    intro L
    induction L with
    | nil => intro _; rfl
    | cons g L' ih =>
      intro hall
      rw [List.flatMap_cons, countCUD_append, hall g (List.mem_cons_self ..),
        ih (fun f hf => hall f (List.mem_cons_of_mem _ hf))]
  exact hflat D hper

theorem countP_createNamed_processDoc_other (fetch : Nat → List Nat) (E : List Document)
    (rd : Bool) (g : Document) (n : String) (hne : g.name ≠ n) :
    (processDoc fetch E rd g).countP (isCreateNamed n) = 0 := by
  apply List.countP_eq_zero.mpr
  intro o ho hpo
  cases o with
  | download i => simp [isCreateNamed] at hpo
  | update i m c => simp [isCreateNamed] at hpo
  | delete i => simp [isCreateNamed] at hpo
  | create m c =>
    simp only [isCreateNamed] at hpo
    have hmn : m = n := beq_iff_eq.mp hpo
    obtain ⟨_, hm, _, _⟩ := create_mem_processDoc fetch E rd g m c ho
    exact hne (by rw [← hm, hmn])

theorem countP_createNamed_processDoc_self (fetch : Nat → List Nat) (E : List Document)
    (rd : Bool) (f : Document) (habs : f.name ∉ E.map Document.name) :
    (processDoc fetch E rd f).countP (isCreateNamed f.name) =
      if (splitext f.name).2 ∈ SUPPORTED_EXTENSIONS_UNSTRUCTURED then 1 else 0 := by
  rw [processDoc_absent fetch E rd f habs]
  unfold createOps
  by_cases hsupp : (splitext f.name).2 ∈ SUPPORTED_EXTENSIONS_UNSTRUCTURED
  · rw [if_pos hsupp, if_pos hsupp]
    simp [isCreateNamed, List.countP_cons]
  · rw [if_neg hsupp, if_neg hsupp]
    simp [isCreateNamed, List.countP_cons]

theorem countP_createNamed_orphan (D E : List Document) (n : String) :
    (orphanOps D E).countP (isCreateNamed n) = 0 := by
  apply List.countP_eq_zero.mpr
  intro o ho hpo
  unfold orphanOps at ho
  obtain ⟨d, _, hdo⟩ := List.mem_map.mp ho
  rw [← hdo] at hpo
  simp [isCreateNamed] at hpo

theorem countP_createNamed_flatMap_zero (fetch : Nat → List Nat) (E : List Document)
    (rd : Bool) (L : List Document) (n : String) (h : ∀ g ∈ L, g.name ≠ n) :
    (L.flatMap (processDoc fetch E rd)).countP (isCreateNamed n) = 0 := by
  induction L with
  | nil => rfl
  | cons g L' ih =>
    rw [List.flatMap_cons, List.countP_append,
      countP_createNamed_processDoc_other fetch E rd g n (h g (List.mem_cons_self ..)),
      ih (fun x hx => h x (List.mem_cons_of_mem _ hx))]

theorem countP_createNamed_flatMap (fetch : Nat → List Nat) (E : List Document) (rd : Bool) :
    ∀ (L : List Document) (f : Document), f ∈ L → (L.map Document.name).Nodup →
    f.name ∉ E.map Document.name →
    (L.flatMap (processDoc fetch E rd)).countP (isCreateNamed f.name) =
      if (splitext f.name).2 ∈ SUPPORTED_EXTENSIONS_UNSTRUCTURED then 1 else 0 := by
  intro L
  induction L with
  | nil =>
    intro f hf _ _
    exact absurd hf (List.not_mem_nil f)
  | cons g L' ih =>
    intro f hf hD habs
    rw [List.flatMap_cons, List.countP_append]
    rw [List.map_cons, List.nodup_cons] at hD
    rcases List.mem_cons.mp hf with rfl | hf'
    · rw [countP_createNamed_processDoc_self fetch E rd f habs,
        countP_createNamed_flatMap_zero fetch E rd L' f.name
          (fun x hx hxn => hD.1 (hxn ▸ List.mem_map_of_mem Document.name hx)),
        Nat.add_zero]
    · have hgn : g.name ≠ f.name :=
        fun hgf => hD.1 (hgf ▸ List.mem_map_of_mem Document.name hf')
      rw [countP_createNamed_processDoc_other fetch E rd g f.name hgn,
        ih f hf' hD.2 habs, Nat.zero_add]

theorem list_files_mem (project_id : Nat) :
    ∀ (entries : List WimiEntry) (extensions : List String) (docs : List Document),
    list_files project_id entries extensions = some docs →
    ∀ doc ∈ docs, ∃ e ∈ entries, ("." ++ e.extension) ∈ extensions ∧
      remove_multiple_extensions e.name = some doc.name ∧ doc.id = e.file_id ∧
      doc.date = e.date ∧ doc.workspace_id = some project_id := by
  intro entries
  induction entries with
  | nil =>
    intro exts docs hrun doc hdoc
    simp only [list_files] at hrun
    injection hrun with h
    rw [← h] at hdoc
    exact absurd hdoc (List.not_mem_nil doc)
  | cons e rest ih =>
    intro exts docs hrun doc hdoc
    simp only [list_files] at hrun
    by_cases hext : ("." ++ e.extension) ∈ exts
    · rw [if_pos hext] at hrun
      cases hrm : remove_multiple_extensions e.name with
      | none => rw [hrm] at hrun; exact absurd hrun (by simp)
      | some nm =>
        cases hrec : list_files project_id rest exts with
        | none => rw [hrm, hrec] at hrun; exact absurd hrun (by simp)
        | some fs =>
          rw [hrm, hrec] at hrun
          simp only [Option.some.injEq] at hrun
          rw [← hrun] at hdoc
          rcases List.mem_cons.mp hdoc with rfl | hdoc'
          · exact ⟨e, List.mem_cons_self .., hext, hrm, rfl, rfl, rfl⟩
          · obtain ⟨e', he', hrest⟩ := ih exts fs hrec doc hdoc'
            exact ⟨e', List.mem_cons_of_mem _ he', hrest⟩
    · rw [if_neg hext] at hrun
      obtain ⟨e', he', hrest⟩ := ih exts docs hrun doc hdoc
      exact ⟨e', List.mem_cons_of_mem _ he', hrest⟩

theorem list_files_incl (project_id : Nat) :
    ∀ (entries : List WimiEntry) (extensions : List String) (docs : List Document),
    list_files project_id entries extensions = some docs →
    ∀ e ∈ entries, ("." ++ e.extension) ∈ extensions →
    ∃ doc ∈ docs, doc.id = e.file_id := by
  intro entries
  induction entries with
  | nil =>
    intro exts docs _ e he _
    exact absurd he (List.not_mem_nil e)
  | cons e0 rest ih =>
    intro exts docs hrun e he hext
    simp only [list_files] at hrun
    rcases List.mem_cons.mp he with rfl | he'
    · rw [if_pos hext] at hrun
      cases hrm : remove_multiple_extensions e.name with
      | none => rw [hrm] at hrun; exact absurd hrun (by simp)
      | some nm =>
        cases hrec : list_files project_id rest exts with
        | none => rw [hrm, hrec] at hrun; exact absurd hrun (by simp)
        | some fs =>
          rw [hrm, hrec] at hrun
          simp only [Option.some.injEq] at hrun
          rw [← hrun]
          exact ⟨_, List.mem_cons_self .., rfl⟩
    · by_cases hext0 : ("." ++ e0.extension) ∈ exts
      · rw [if_pos hext0] at hrun
        cases hrm : remove_multiple_extensions e0.name with
        | none => rw [hrm] at hrun; exact absurd hrun (by simp)
        | some nm =>
          cases hrec : list_files project_id rest exts with
          | none => rw [hrm, hrec] at hrun; exact absurd hrun (by simp)
          | some fs =>
            rw [hrm, hrec] at hrun
            simp only [Option.some.injEq] at hrun
            obtain ⟨doc, hdoc, hdocid⟩ := ih exts fs hrec e he' hext
            rw [← hrun]
            exact ⟨doc, List.mem_cons_of_mem _ hdoc, hdocid⟩
      · rw [if_neg hext0] at hrun
        exact ih exts docs hrun e he' hext

/-- Claim C1: the spec demands an in-place update exactly when
`canonical.createdAt <= desired.lastModified` and the desired extension is
extraction-capable; on D = a single "a.pdf" with lastModified 100 and
E = a single same-named entry with createdAt 50, an update must occur. The
code instead computes the update-branch extension as
`'.' + os.path.splitext(name)[1]` = "..pdf", which is never in the
extraction-capable set, so the run performs no update operation at all: the
code contradicts the spec (and its own "Updated document" log line) at this
input. -/
theorem update_never_fires_on_stale_supported_input :
    ((⟨"a.pdf", 10, 50, none⟩ : Document).date ≤
      (⟨"a.pdf", 1, 100, some 0⟩ : Document).date) ∧
    ".pdf" ∈ SUPPORTED_EXTENSIONS_UNSTRUCTURED ∧
    ("." ++ (splitext "a.pdf").2) = "..pdf" ∧
    "..pdf" ∉ SUPPORTED_EXTENSIONS_UNSTRUCTURED ∧
    (synchronize_with_dify (fun _ => [0]) [⟨"a.pdf", 1, 100, some 0⟩]
      [⟨"a.pdf", 10, 50, none⟩] true).filter Op.isUpdate = [] := by
  decide

/-- Claim C2 counterexample: the desired list may carry two documents with the
same normalized name (for instance the same file reached through two synced
folders). After a successful first run over an empty sink, the sink holds two
same-named entries, and a second identical run with removeDuplicates set
performs two delete operations — not zero. -/
theorem sync_second_run_not_idempotent :
    countCUD (synchronize_with_dify (fun _ => [0])
      [⟨"a.pdf", 1, 10, some 0⟩, ⟨"a.pdf", 2, 10, some 0⟩]
      (applyOps (fun n => { name := n, id := 99, date := 777 })
        [] (synchronize_with_dify (fun _ => [0])
          [⟨"a.pdf", 1, 10, some 0⟩, ⟨"a.pdf", 2, 10, some 0⟩] [] true)) true) = 2 := by
  decide

/-- Claim C2 (amended): when the desired documents' names are pairwise
distinct, the sink's existing ids are pairwise distinct, and the sink stores
each created document under the uploaded name with a fresh id, re-running the
reconciler on the sink state left by a prior successful run performs zero
create, update and delete operations. -/
theorem sync_idempotent_of_distinct_names (fetch : Nat → List Nat)
    (stamp : String → Document) (D E : List Document) (rd : Bool)
    (hD : (D.map Document.name).Nodup) (hE : (E.map Document.id).Nodup)
    (hsn : ∀ n, (stamp n).name = n) (hfresh : ∀ n, (stamp n).id ∉ E.map Document.id) :
    countCUD (synchronize_with_dify fetch D
      (applyOps stamp E (synchronize_with_dify fetch D E rd)) rd) = 0 := by
  apply countCUD_sync_zero
  · exact fun d hd => sync_post_names_subset fetch stamp D E rd hfresh hsn d hd
  · exact fun f hf hsupp =>
      sync_post_supported_present fetch stamp D E rd hE hfresh hsn f hf hsupp
  · intro hrd n
    subst hrd
    exact sync_post_name_count fetch stamp D E hD hE hfresh hsn n

/-- Witness for the amended claim C2, at a one-document desired list against a
two-document sink. -/
theorem sync_idempotent_of_distinct_names_witness :
    ((([⟨"a.pdf", 1, 100, some 0⟩] : List Document).map Document.name).Nodup) ∧
    ((([⟨"a.pdf", 10, 50, none⟩, ⟨"b.txt", 11, 5, none⟩] : List Document).map
      Document.id).Nodup) ∧
    countCUD (synchronize_with_dify (fun _ => [0]) [⟨"a.pdf", 1, 100, some 0⟩]
      (applyOps (fun n => { name := n, id := 99, date := 777 })
        [⟨"a.pdf", 10, 50, none⟩, ⟨"b.txt", 11, 5, none⟩]
        (synchronize_with_dify (fun _ => [0]) [⟨"a.pdf", 1, 100, some 0⟩]
          [⟨"a.pdf", 10, 50, none⟩, ⟨"b.txt", 11, 5, none⟩] true)) true) = 0 :=
  ⟨by decide, by decide,
    sync_idempotent_of_distinct_names (fun _ => [0])
      (fun n => { name := n, id := 99, date := 777 })
      [⟨"a.pdf", 1, 100, some 0⟩] [⟨"a.pdf", 10, 50, none⟩, ⟨"b.txt", 11, 5, none⟩] true
      (by decide) (by decide) (fun n => rfl)
      (fun n => show (99 : Nat) ∉ [10, 11] by decide)⟩

/-- Claim C3: with removeDuplicates set, processing a desired document whose
name is shared by more than one existing entry first sorts the same-named
entries by descending createdAt — the head is the canonical entry, the one
with the strictly most recent createdAt — then deletes exactly the remaining
(non-canonical) entries, before the update decision of the same step. -/
theorem dup_collapse_exact (fetch : Nat → List Nat) (E : List Document)
    (f M : Document) (hin : f.name ∈ E.map Document.name)
    (hM : M ∈ sameName E f.name)
    (hu : ∀ z ∈ sameName E f.name, z ≠ M → z.date < M.date)
    (hlen : 1 < (sameName E f.name).length) :
    ∃ t, sortDesc (sameName E f.name) = M :: t ∧
      List.Perm t ((sameName E f.name).erase M) ∧
      processDoc fetch E true f =
        t.map (fun d => Op.delete d.id) ++ updateOps fetch f M := by
  obtain ⟨t, hs⟩ := sortDesc_unique_head _ M hM hu
  refine ⟨t, hs, ?_, ?_⟩
  · have hperm : List.Perm (M :: t) (sameName E f.name) := hs ▸ sortDesc_perm _
    exact (List.cons_perm_iff_perm_erase.mp hperm).2
  · have hpy : pyMax (sameName E f.name) = some M := pyMax_unique _ M hM hu
    rw [processDoc_present fetch E true f M hin hpy, if_pos ⟨rfl, hlen⟩,
      updateOps_eq_nil, List.append_nil]
    unfold dupDeleteOps
    rw [hs]
    rfl

/-- Witness for claim C3: three entries named "x" with createdAt 10, 20, 15;
the entry with createdAt 20 is canonical, the other two are deleted. -/
theorem dup_collapse_exact_witness :
    (1 < (sameName [⟨"x", 1, 10, none⟩, ⟨"x", 2, 20, none⟩, ⟨"x", 3, 15, none⟩] "x").length) ∧
    ∃ t, sortDesc (sameName [⟨"x", 1, 10, none⟩, ⟨"x", 2, 20, none⟩, ⟨"x", 3, 15, none⟩] "x")
        = ⟨"x", 2, 20, none⟩ :: t ∧
      List.Perm t ((sameName [⟨"x", 1, 10, none⟩, ⟨"x", 2, 20, none⟩,
        ⟨"x", 3, 15, none⟩] "x").erase ⟨"x", 2, 20, none⟩) ∧
      processDoc (fun _ => [0]) [⟨"x", 1, 10, none⟩, ⟨"x", 2, 20, none⟩,
          ⟨"x", 3, 15, none⟩] true ⟨"x", 7, 0, some 0⟩ =
        t.map (fun d => Op.delete d.id) ++
          updateOps (fun _ => [0]) ⟨"x", 7, 0, some 0⟩ ⟨"x", 2, 20, none⟩ :=
  ⟨by decide,
    dup_collapse_exact (fun _ => [0])
      [⟨"x", 1, 10, none⟩, ⟨"x", 2, 20, none⟩, ⟨"x", 3, 15, none⟩]
      ⟨"x", 7, 0, some 0⟩ ⟨"x", 2, 20, none⟩
      (by decide) (by decide) (by decide) (by decide)⟩

/-- Claim C4: the run is the create/update pass over the desired list followed
by the orphan pass, and the orphan pass deletes an existing document's id
exactly when its name is absent from the desired names. -/
theorem orphan_pass_exact (fetch : Nat → List Nat) (D E : List Document) (rd : Bool)
    (hE : (E.map Document.id).Nodup) (d : Document) (hd : d ∈ E) :
    (Op.delete d.id ∈ orphanOps D E ↔ d.name ∉ D.map Document.name) ∧
    synchronize_with_dify fetch D E rd =
      D.flatMap (processDoc fetch E rd) ++ orphanOps D E := by
  refine ⟨⟨?_, ?_⟩, rfl⟩
  · intro h
    unfold orphanOps at h
    obtain ⟨e, he, heo⟩ := List.mem_map.mp h
    obtain ⟨he1, he2⟩ := List.mem_filter.mp he
    have hei : e.id = d.id := by injection heo
    have hed : e = d := eq_of_mem_id E hE e d he1 hd hei
    rw [← hed]
    exact of_decide_eq_true he2
  · intro h
    unfold orphanOps
    exact List.mem_map_of_mem _ (List.mem_filter.mpr ⟨hd, decide_eq_true h⟩)

/-- Witness for claim C4: D names {"a"}, E contains "a" and "b"; the orphan
pass deletes exactly "b". -/
theorem orphan_pass_exact_witness :
    ((([⟨"a", 10, 5, none⟩, ⟨"b", 11, 6, none⟩] : List Document).map Document.id).Nodup) ∧
    ((Op.delete 11 ∈ orphanOps [⟨"a", 1, 0, some 0⟩] [⟨"a", 10, 5, none⟩, ⟨"b", 11, 6, none⟩] ↔
      "b" ∉ ([⟨"a", 1, 0, some 0⟩] : List Document).map Document.name) ∧
    synchronize_with_dify (fun _ => [0]) [⟨"a", 1, 0, some 0⟩]
        [⟨"a", 10, 5, none⟩, ⟨"b", 11, 6, none⟩] true =
      ([⟨"a", 1, 0, some 0⟩] : List Document).flatMap
        (processDoc (fun _ => [0]) [⟨"a", 10, 5, none⟩, ⟨"b", 11, 6, none⟩] true) ++
        orphanOps [⟨"a", 1, 0, some 0⟩] [⟨"a", 10, 5, none⟩, ⟨"b", 11, 6, none⟩]) :=
  ⟨by decide,
    orphan_pass_exact (fun _ => [0]) [⟨"a", 1, 0, some 0⟩]
      [⟨"a", 10, 5, none⟩, ⟨"b", 11, 6, none⟩] true (by decide)
      ⟨"b", 11, 6, none⟩ (by decide)⟩

/-- Claim C5: a desired document whose name is absent from the existing set
has its content fetched from the source by its id; when its extension is
extraction-capable, the whole run performs exactly one create carrying that
name, and that create op carries the fetched content; otherwise the run
performs no create for that name. -/
theorem create_on_absence_exact (fetch : Nat → List Nat) (D E : List Document) (rd : Bool)
    (f : Document) (hf : f ∈ D) (hD : (D.map Document.name).Nodup)
    (habs : f.name ∉ E.map Document.name) :
    ((synchronize_with_dify fetch D E rd).countP (isCreateNamed f.name) =
      if (splitext f.name).2 ∈ SUPPORTED_EXTENSIONS_UNSTRUCTURED then 1 else 0) ∧
    ((splitext f.name).2 ∈ SUPPORTED_EXTENSIONS_UNSTRUCTURED →
      Op.create f.name (fetch f.id) ∈ synchronize_with_dify fetch D E rd) ∧
    Op.download f.id ∈ synchronize_with_dify fetch D E rd := by
  refine ⟨?_, ?_, ?_⟩
  · rw [sync_ops_shape, List.countP_append, countP_createNamed_orphan, Nat.add_zero]
    exact countP_createNamed_flatMap fetch E rd D f hf hD habs
  · intro hsupp
    rw [sync_ops_shape]
    apply List.mem_append_left
    apply List.mem_flatMap.mpr
    refine ⟨f, hf, ?_⟩
    rw [processDoc_absent fetch E rd f habs]
    unfold createOps
    rw [if_pos hsupp]
    exact List.mem_cons_of_mem _ (List.mem_singleton.mpr rfl)
  · rw [sync_ops_shape]
    apply List.mem_append_left
    apply List.mem_flatMap.mpr
    refine ⟨f, hf, ?_⟩
    rw [processDoc_absent fetch E rd f habs]
    unfold createOps
    exact List.mem_cons_self ..

/-- Witness for claim C5: desired = {"new.pdf"}, existing = {}: exactly one
create occurs, carrying the fetched content. -/
theorem create_on_absence_exact_witness :
    ("new.pdf" ∉ ([] : List Document).map Document.name) ∧
    (((synchronize_with_dify (fun _ => [7]) [⟨"new.pdf", 1, 0, some 0⟩] [] false).countP
        (isCreateNamed "new.pdf") =
      if (splitext "new.pdf").2 ∈ SUPPORTED_EXTENSIONS_UNSTRUCTURED then 1 else 0) ∧
    ((splitext "new.pdf").2 ∈ SUPPORTED_EXTENSIONS_UNSTRUCTURED →
      Op.create "new.pdf" [7] ∈
        synchronize_with_dify (fun _ => [7]) [⟨"new.pdf", 1, 0, some 0⟩] [] false) ∧
    Op.download 1 ∈ synchronize_with_dify (fun _ => [7]) [⟨"new.pdf", 1, 0, some 0⟩] [] false) :=
  ⟨by decide,
    create_on_absence_exact (fun _ => [7]) [⟨"new.pdf", 1, 0, some 0⟩] [] false
      ⟨"new.pdf", 1, 0, some 0⟩ (by decide) (by decide) (by decide)⟩

/-- Claim C6: every document produced by the source listing carries as its
identity key the result of applying `remove_multiple_extensions` once to the
raw source filename, and "report.pdf.pdf" normalizes to "report.pdf". -/
theorem ingestion_normalizes_once (project_id : Nat) (entries : List WimiEntry)
    (extensions : List String) (docs : List Document) (doc : Document)
    (hrun : list_files project_id entries extensions = some docs) (hdoc : doc ∈ docs) :
    (∃ e ∈ entries, remove_multiple_extensions e.name = some doc.name) ∧
    remove_multiple_extensions "report.pdf.pdf" = some "report.pdf" := by
  refine ⟨?_, by decide⟩
  obtain ⟨e, he, _, hrm, _⟩ := list_files_mem project_id entries extensions docs hrun doc hdoc
  exact ⟨e, he, hrm⟩

/-- Witness for claim C6: a listing with the raw filename "report.pdf.pdf"
produces the identity key "report.pdf". -/
theorem ingestion_normalizes_once_witness :
    (list_files 0 [⟨"report.pdf.pdf", "pdf", 5, 3⟩] SUPPORTED_EXTENSIONS_UNSTRUCTURED =
      some [⟨"report.pdf", 5, 3, some 0⟩]) ∧
    ((∃ e ∈ ([⟨"report.pdf.pdf", "pdf", 5, 3⟩] : List WimiEntry),
      remove_multiple_extensions e.name = some "report.pdf") ∧
    remove_multiple_extensions "report.pdf.pdf" = some "report.pdf") :=
  ⟨by decide,
    ingestion_normalizes_once 0 [⟨"report.pdf.pdf", "pdf", 5, 3⟩]
      SUPPORTED_EXTENSIONS_UNSTRUCTURED [⟨"report.pdf", 5, 3, some 0⟩]
      ⟨"report.pdf", 5, 3, some 0⟩ (by decide) (by decide)⟩

/-- Claim C7: on a filename made of three or more identical dot-separated
segments the collapse loop strips until one segment remains and then reads
the second-to-last element of a one-element list — an `IndexError`, embedded
as `none` — and the error is reachable through the listing interface: a
listing containing such a filename (with a supported raw extension) aborts. -/
theorem normalization_raises_on_repeated_segments (s seg : String) (n : Nat)
    (hn : 3 ≤ n) (hs : splitDot s = List.replicate n seg) :
    remove_multiple_extensions s = none ∧
    list_files 0 [⟨"pdf.pdf.pdf", "pdf", 5, 0⟩] SUPPORTED_EXTENSIONS_UNSTRUCTURED = none := by
  refine ⟨?_, by decide⟩
  have h1 : remove_multiple_extensions s =
      if (List.replicate n seg).length > 2 then
        (collapseTrailingDups (List.replicate n seg).reverse).map (fun r => joinDot r.reverse)
      else some s := by
    unfold remove_multiple_extensions
    rw [hs]
  rw [h1, if_pos (show (List.replicate n seg).length > 2 by
      rw [List.length_replicate]; omega),
    List.reverse_replicate, collapse_replicate seg n (by omega)]
  rfl

/-- Witness for claim C7: "pdf.pdf.pdf" consists of three identical segments
and makes `remove_multiple_extensions` raise. -/
theorem normalization_raises_witness :
    (splitDot "pdf.pdf.pdf" = List.replicate 3 "pdf") ∧
    (remove_multiple_extensions "pdf.pdf.pdf" = none ∧
    list_files 0 [⟨"pdf.pdf.pdf", "pdf", 5, 0⟩] SUPPORTED_EXTENSIONS_UNSTRUCTURED = none) :=
  ⟨by decide,
    normalization_raises_on_repeated_segments "pdf.pdf.pdf" "pdf" 3 (by decide) (by decide)⟩

/-- Claim C10: with ids pairwise distinct, a listed source entry yields a
document in the listing's result exactly when `'.' + extension` is in the
active supported-extension set, the set being fixed once per run by the
`UNSTRUCTURED` configuration flag. -/
theorem extension_filter_exact (project_id : Nat) (entries : List WimiEntry)
    (u : Bool) (docs : List Document) (e : WimiEntry)
    (hids : (entries.map WimiEntry.file_id).Nodup)
    (hrun : list_files project_id entries (activeExtensions u) = some docs)
    (he : e ∈ entries) :
    (∃ doc ∈ docs, doc.id = e.file_id) ↔ ("." ++ e.extension) ∈ activeExtensions u := by
  constructor
  · rintro ⟨doc, hdoc, hdocid⟩
    obtain ⟨e', he', hext', _, hid', _⟩ :=
      list_files_mem project_id entries (activeExtensions u) docs hrun doc hdoc
    have hee : e' = e :=
      List.inj_on_of_nodup_map hids he' he (by rw [← hid', hdocid])
    rw [← hee]
    exact hext'
  · intro hext
    exact list_files_incl project_id entries (activeExtensions u) docs hrun e he hext

/-- Witness for claim C10: with the extraction-capable set active, "a.pdf" is
listed and "b.exe" is filtered out. -/
theorem extension_filter_exact_witness :
    (list_files 0 [⟨"a.pdf", "pdf", 1, 0⟩, ⟨"b.exe", "exe", 2, 0⟩]
      (activeExtensions true) = some [⟨"a.pdf", 1, 0, some 0⟩]) ∧
    ((∃ doc ∈ ([⟨"a.pdf", 1, 0, some 0⟩] : List Document), doc.id = 1) ↔
      ("." ++ "pdf") ∈ activeExtensions true) :=
  ⟨by decide,
    extension_filter_exact 0 [⟨"a.pdf", "pdf", 1, 0⟩, ⟨"b.exe", "exe", 2, 0⟩] true
      [⟨"a.pdf", 1, 0, some 0⟩] ⟨"a.pdf", "pdf", 1, 0⟩
      (by decide) (by decide) (by decide)⟩

/-- Claim C8 counterexample: when the very first fetch of a run fails, the
`except` block evaluates the never-bound `content_stream` variable and raises
`NameError`: the error surfaces after ZERO create attempts — no retry of the
creation is made, against the claim's "retries the creation exactly once". -/
theorem create_retry_counterexample :
    (create_new_document ⟨"doc.pdf", 1, 0, none⟩ none none true true).uploadAttempts = 0 ∧
    (create_new_document ⟨"doc.pdf", 1, 0, none⟩ none none true true).errorSurfaced = true ∧
    ¬ 1 ≤ (create_new_document ⟨"doc.pdf", 1, 0, none⟩ none none true true).uploadAttempts := by
  decide

/-- Claim C8 (amended): at most two create attempts are ever made for one
document. When the first upload attempt fails, exactly one retry is made and
the error surfaces iff the retry also fails. A fetch failure reaches a single
(re)creation attempt only when an earlier iteration left fetched content
bound; with no such content the error surfaces with zero create attempts. -/
theorem create_retry_bounded (file : Document) (prior fetched : Option (List Nat))
    (u1 u2 : Bool) :
    (create_new_document file prior fetched u1 u2).uploadAttempts ≤ 2 ∧
    ((∃ c, fetched = some c) →
      (splitext file.name).2 ∈ SUPPORTED_EXTENSIONS_UNSTRUCTURED → u1 = false →
      (create_new_document file prior fetched u1 u2).uploadAttempts = 2 ∧
      ((create_new_document file prior fetched u1 u2).errorSurfaced = true ↔ u2 = false)) ∧
    (fetched = none → (∃ c, prior = some c) →
      (create_new_document file prior fetched u1 u2).uploadAttempts = 1 ∧
      ((create_new_document file prior fetched u1 u2).errorSurfaced = true ↔ u1 = false)) ∧
    (fetched = none → prior = none →
      (create_new_document file prior fetched u1 u2).uploadAttempts = 0 ∧
      (create_new_document file prior fetched u1 u2).errorSurfaced = true) := by
  rcases fetched with _ | c
  · rcases prior with _ | p
    · simp [create_new_document]
    · cases u1 <;> simp [create_new_document]
  · by_cases hsupp : (splitext file.name).2 ∈ SUPPORTED_EXTENSIONS_UNSTRUCTURED
    · cases u1 <;> cases u2 <;> simp [create_new_document, hsupp]
    · cases u1 <;> cases u2 <;> simp [create_new_document, hsupp]

/-- Witness for the amended claim C8: a failing first upload of "new.pdf"
with a succeeding retry: two attempts, no surfaced error. -/
theorem create_retry_bounded_witness :
    (create_new_document ⟨"new.pdf", 1, 0, none⟩ none (some [1]) false true).uploadAttempts = 2 ∧
    (create_new_document ⟨"new.pdf", 1, 0, none⟩ none (some [1]) false true).errorSurfaced
      = false := by
  have h := (create_retry_bounded ⟨"new.pdf", 1, 0, none⟩ none (some [1]) false true).2.1
    ⟨[1], rfl⟩ (by decide) rfl
  refine ⟨h.1, ?_⟩
  have h2 := h.2
  simp only [Bool.true_eq_false, iff_false] at h2
  exact Bool.not_eq_true _ |>.mp h2

/-- Claim C9: when the sink's update answer carries no document, the client
deletes the existing entry and uploads a fresh document with the same name
and the same content, in that order, and (the fallback upload succeeding) no
error surfaces to the caller. -/
theorem update_reject_fallback (document_name : String) (document_id : Nat)
    (content : List Nat) :
    (update_document document_name document_id content false true).errorSurfaced = false ∧
    (update_document document_name document_id content false true).ops =
      [Op.update document_id document_name content, Op.delete document_id,
        Op.create document_name content] :=
  ⟨rfl, rfl⟩
